import Mathlib

/-!
# Verification of `postcode_flow_diagram.py`

A shallow embedding of the swimlane-diagram generator
`src/address-lookup/documentation/postcode_flow_diagram.py` and proofs about it.

The script's observable behaviour is determined by:

* `textwrap.fill(text, width)` from the CPython standard library, called with all
  default options (`expand_tabs=True`, `tabsize=8`, `replace_whitespace=True`,
  `fix_sentence_endings=False`, `break_long_words=True`, `drop_whitespace=True`,
  `break_on_hyphens=True`, `max_lines=None`) -- embedded below on `List Char`;
* the hard-coded iterator `ys` of 24 y-coordinates and the hard-coded sequence of
  23 `arrow` / `box_text` calls in `build_diagram`;
* the geometry of `arrow` (a line annotated from `(x0, y)` to `(x1, y)` with the
  arrowhead at `(x1, y)`, and a caption box at `((x0+x1)/2, y - 0.006)`).

Python `str` values are modelled as `List Char`; Python float coordinate
arithmetic is modelled over `ℚ` (all literals in the script are short decimal
fractions and only additions, halvings and comparisons of them occur, so the
rational model tracks the float computation exactly for the facts proved here).
Loops of the CPython wrapping algorithm are modelled by structurally recursive
functions with an explicit fuel argument; at every call site the fuel supplied is
proved sufficient, so the fuel never runs out and the functions compute exactly
what the Python loops compute.
-/

namespace PCF

/-! ## CPython `textwrap` whitespace classes

`textwrap._whitespace = '\t\n\x0b\x0c\r '` is the 6-character class used by the
chunk splitter and by `_munge_whitespace`.  Python's `str.strip()` (used by
`_wrap_chunks` to detect all-whitespace chunks) strips the larger set of the 29
codepoints for which `Py_UNICODE_ISSPACE` holds. -/

/-- The six characters of `textwrap._whitespace`. -/
def isWs (c : Char) : Bool :=
  c == '\t' || c == '\n' || c == Char.ofNat 11 || c == Char.ofNat 12 || c == '\r' || c == ' '

/-- Codepoints removed by Python `str.strip()` with no arguments
(`Py_UNICODE_ISSPACE`). -/
def stripSpaceCodes : List Nat :=
  [9, 10, 11, 12, 13, 28, 29, 30, 31, 32, 0x85, 0xa0, 0x1680,
   0x2000, 0x2001, 0x2002, 0x2003, 0x2004, 0x2005, 0x2006, 0x2007, 0x2008,
   0x2009, 0x200a, 0x2028, 0x2029, 0x202f, 0x205f, 0x3000]

/-- `c` is stripped by Python `str.strip()`. -/
def isStripSpace (c : Char) : Bool := stripSpaceCodes.contains c.toNat

/-- A Python string `s` with `s.strip() == ''` (an "all whitespace" chunk in
`_wrap_chunks`). -/
def isBlank (c : List Char) : Bool := c.all isStripSpace

/-! ## `_munge_whitespace`: `text.expandtabs(8)` then mapping the six
whitespace characters to `' '`. -/

/-- `str.expandtabs(8)`: a tab becomes `8 - col % 8` spaces; `'\n'` and `'\r'`
reset the column; every other character advances the column by one. -/
def expandTabsAux : Nat → List Char → List Char
  | _, [] => []
  | col, c :: cs =>
    if c == '\t' then
      List.replicate (8 - col % 8) ' ' ++ expandTabsAux (col + (8 - col % 8)) cs
    else if c == '\n' || c == '\r' then
      c :: expandTabsAux 0 cs
    else
      c :: expandTabsAux (col + 1) cs

/-- `unicode_whitespace_trans`: each of the six whitespace characters becomes a
space. -/
def mungeChar (c : Char) : Char := if isWs c then ' ' else c

/-- `TextWrapper._munge_whitespace` with the default options. -/
def munge (l : List Char) : List Char := (expandTabsAux 0 l).map mungeChar

/-! ## The chunk splitter (`wordsep_re`, `break_on_hyphens=True`)

The regex
```
( \s+
| (?<=[\w!"'&.,?]) -{2,} (?=\w)
| [^\s]+? (?: -(?:(?<=[^\d\W]{2}-)|(?<=[^\d\W]-[^\d\W]-))(?=[^\d\W]-?[^\d\W])
             | (?=\s|\Z)
             | (?<=[\w!"'&.,?])(?=-{2,}\w) ) )
```
is implemented as a left-to-right scanner.  Every position of the text starts a
match, so `re.split` over the single capture group (with empty pieces removed)
returns exactly the token list.  Python's `\w` is Unicode-aware; it is modelled
here for the ASCII range (`[A-Za-z0-9_]`), which agrees with Python on every
character appearing in this script's captions. -/

/-- Python `\w`, ASCII range. -/
def isWordChar (c : Char) : Bool := c.isAlphanum || c == '_'

/-- The regex class `letter = [^\d\W]` (a word character that is not a digit),
ASCII range. -/
def isLetterChar (c : Char) : Bool := isWordChar c && !c.isDigit

/-- The regex class `word_punct = [\w!"'&.,?]`, ASCII range for `\w`. -/
def isWordPunct (c : Char) : Bool :=
  isWordChar c || c == '!' || c == '"' || c == Char.ofNat 39 || c == '&' ||
    c == '.' || c == ',' || c == '?'

/-- Lookahead `(?=[^\d\W]-?[^\d\W])` of the hyphenated-word alternative. -/
def hyphLook : List Char → Bool
  | a :: b :: rest =>
    isLetterChar a && (isLetterChar b || (b == '-' && isLetterChar (rest.headD ' ')))
  | _ => false

/-- Lookbehind `(?:(?<=[^\d\W]{2}-)|(?<=[^\d\W]-[^\d\W]-))` of the
hyphenated-word alternative; the argument is the reversed text up to and
including the just-consumed `'-'`. -/
def hyphBehind : List Char → Bool
  | '-' :: a :: b :: rest =>
    isLetterChar a && (isLetterChar b || (b == '-' && isLetterChar (rest.headD ' ')))
  | _ => false

/-- Lookahead `(?=-{2,}\w)`: a run of at least two hyphens followed by a word
character (backtracking forces the whole run to be consumed before `\w`). -/
def emDashAhead : List Char → Bool
  | '-' :: '-' :: rest => isWordChar ((rest.dropWhile (· == '-')).headD ' ')
  | _ => false

/-- The non-greedy word alternative `[^\s]+? (?: ... )`: having already consumed
`n ≥ 1` characters (with `rev` the reversed text before the current position),
return the total number of characters of the token.  The three alternatives of
the trailing group are tried in regex order at each consumption count. -/
def wordScan (rev : List Char) (rest : List Char) (n : Nat) : Nat :=
  match rest with
  | [] => n
  | c :: rs =>
    if isWs c then n
    else if c == '-' && hyphBehind ('-' :: rev) && hyphLook rs then n + 1
    else if isWordPunct (rev.headD ' ') && emDashAhead rest then n
    else wordScan (c :: rev) rs (n + 1)

/-- One token of `wordsep_re.split` starting at `c :: rs` (with `rev` the
reversed text before it), together with the rest of the text.  The top-level
alternatives: a whitespace run, an em-dash run, or a word. -/
def splitAuxF : Nat → List Char → List Char → List (List Char)
  | 0, _, _ => []
  | _ + 1, _, [] => []
  | fuel + 1, rev, c :: rs =>
    if isWs c then
      let tok := c :: rs.takeWhile isWs
      tok :: splitAuxF fuel (tok.reverse ++ rev) (rs.dropWhile isWs)
    else if isWordPunct (rev.headD ' ') && emDashAhead (c :: rs) then
      let tok := c :: rs.takeWhile (· == '-')
      tok :: splitAuxF fuel (tok.reverse ++ rev) (rs.dropWhile (· == '-'))
    else
      let n := wordScan (c :: rev) rs 1
      let tok := (c :: rs).take n
      tok :: splitAuxF fuel (tok.reverse ++ rev) ((c :: rs).drop n)

/-- `TextWrapper._split` with `break_on_hyphens=True`.  The fuel `t.length`
is sufficient: every token is nonempty (see `splitAuxF_flatten`). -/
def pySplit (t : List Char) : List (List Char) := splitAuxF t.length [] t

/-! ## `_wrap_chunks` (defaults: `drop_whitespace=True`, `break_long_words=True`,
`break_on_hyphens=True`, no indents, `max_lines=None`) -/

/-- Total length of a list of chunks (`sum(map(len, cur_line))`). -/
def sumLen (ls : List (List Char)) : Nat := (ls.map List.length).sum

/-- `str.rfind('-', 0, k)` restricted to the already-truncated chunk: index of
the last `'-'`, if any. -/
def rfindHyphen : List Char → Option Nat
  | [] => none
  | c :: rs =>
    match rfindHyphen rs with
    | some h => some (h + 1)
    | none => if c == '-' then some 0 else none

/-- The index `end` computed by `TextWrapper._handle_long_word` with
`break_long_words=True` and `break_on_hyphens=True`: the space left on the line
(at least one character when the width is degenerate), moved back to just after
the last hyphen of the part that fits, when that hyphen has a non-hyphen before
it. -/
def hlwEnd (w curLen : Nat) (chunk : List Char) : Nat :=
  let spaceLeft := if w < 1 then 1 else w - curLen
  if spaceLeft < chunk.length then
    match rfindHyphen (chunk.take spaceLeft) with
    | some h =>
      if 0 < h ∧ (chunk.take h).any (· != '-') then h + 1 else spaceLeft
    | none => spaceLeft
  else spaceLeft

/-- `TextWrapper._handle_long_word`: `(chunk[:end], chunk[end:])` -- the piece
appended to the current line and the remainder put back at the head of the
chunk list. -/
def handleLongWord (w curLen : Nat) (chunk : List Char) : List Char × List Char :=
  (chunk.take (hlwEnd w curLen chunk), chunk.drop (hlwEnd w curLen chunk))

/-- The inner `while chunks:` loop of `_wrap_chunks`: greedily move chunks onto
the current line while the accumulated length stays within `w`. -/
def takeGreedy (w : Nat) : Nat → List (List Char) → List (List Char) × List (List Char)
  | _, [] => ([], [])
  | curLen, c :: cs =>
    if curLen + c.length ≤ w then
      let r := takeGreedy w (curLen + c.length) cs
      (c :: r.1, r.2)
    else ([], c :: cs)

/-- `if self.drop_whitespace and chunks[-1].strip() == '' and lines: del
chunks[-1]`: drop a leading all-whitespace chunk, but only once a line exists. -/
def dropLeadingBlank (hasLines : Bool) (chunks : List (List Char)) : List (List Char) :=
  match chunks with
  | c :: cs => if hasLines && isBlank c then cs else chunks
  | [] => []

/-- The greedy inner loop followed by `_handle_long_word` on an over-long head
chunk: the pieces of the current line, and the chunks remaining. -/
def fillLine (w : Nat) (chunks1 : List (List Char)) :
    List (List Char) × List (List Char) :=
  let tg := takeGreedy w 0 chunks1
  match tg.2 with
  | c :: cs =>
    if w < c.length then
      let hl := handleLongWord w (sumLen tg.1) c
      (tg.1 ++ [hl.1], hl.2 :: cs)
    else (tg.1, c :: cs)
  | [] => (tg.1, [])

/-- `if self.drop_whitespace and cur_line and cur_line[-1].strip() == '': del
cur_line[-1]`: drop a trailing all-whitespace piece from the line. -/
def dropTrailingBlank (cur : List (List Char)) : List (List Char) :=
  match cur.getLast? with
  | some last => if isBlank last then cur.dropLast else cur
  | none => cur

/-- One iteration of the outer `while chunks:` loop of `_wrap_chunks`:
optionally drop a leading all-whitespace chunk, fill the line greedily, split an
over-long head chunk, drop a trailing all-whitespace piece, and emit the line if
nonempty. -/
def buildOneLine (w : Nat) (hasLines : Bool) (chunks : List (List Char)) :
    Option (List Char) × List (List Char) :=
  let fl := fillLine w (dropLeadingBlank hasLines chunks)
  let cur3 := dropTrailingBlank fl.1
  (if cur3.isEmpty then none else some cur3.flatten, fl.2)

/-- Measure justifying termination of the outer loop: every iteration removes at
least one chunk or one character. -/
def msr (chunks : List (List Char)) : Nat := (chunks.map (fun c => c.length + 1)).sum

/-- The outer `while chunks:` loop of `_wrap_chunks`; `hasLines` records whether
`lines` is nonempty.  Fuel `msr chunks` is sufficient (`buildOneLine_msr_lt`). -/
def wrapLoopF (w : Nat) : Nat → Bool → List (List Char) → List (List Char)
  | 0, _, _ => []
  | _ + 1, _, [] => []
  | fuel + 1, hasLines, c :: cs =>
    let r := buildOneLine w hasLines (c :: cs)
    match r.1 with
    | some line => line :: wrapLoopF w fuel true r.2
    | none => wrapLoopF w fuel hasLines r.2

/-- `TextWrapper.wrap(text)` with the script's configuration: `none` models the
`ValueError` raised for `width <= 0` (the `--wrap` option is an `int`; the
nonnegative model `width : Nat` puts all such values at `0`). -/
def pyWrap (t : List Char) (width : Nat) : Option (List (List Char)) :=
  if width = 0 then none
  else
    let chunks := pySplit (munge t)
    some (wrapLoopF width (msr chunks) false chunks)

/-- `'\n'.join` / rejoining with an arbitrary separator. -/
def joinWith (sep : List Char) : List (List Char) → List Char
  | [] => []
  | [l] => l
  | l :: l' :: ls => l ++ sep ++ joinWith sep (l' :: ls)

/-- `textwrap.fill(text, width)` as called by the script. -/
def pyFill (t : List Char) (width : Nat) : Option (List Char) :=
  (pyWrap t width).map (joinWith ['\n'])

/-! ## The diagram build (`build_diagram`)

Lane x positions are the script's literals; coordinates are modelled in `ℚ`.
Page size and font sizes flow only into rendering attributes (figure size,
font size, dash pattern, line widths, box style) that carry no layout logic;
they are not recorded in the drawing operations. -/

-- Lane x positions
def x_client : ℚ := 0.10
def x_edge : ℚ := 0.37
def x_worker : ℚ := 0.65
def x_os : ℚ := 0.90

/-- The `lanes` list: `(x, label)` pairs, in source order. -/
def lanes : List (ℚ × String) :=
  [(x_client, "Frontend"),
   (x_edge, "Cloudflare Edge"),
   (x_worker, "Worker (Edge)"),
   (x_os, "OS Places API")]

/-- One drawing operation performed on the shared axes. -/
inductive DrawOp
  /-- `ax.plot([x, x], [0.02, 0.98], ...)`: a dashed vertical lane guide-line. -/
  | laneLine (x : ℚ)
  /-- `ax.text(x, 0.99, label, ...)`: a bold lane title. -/
  | laneTitle (x : ℚ) (label : String)
  /-- `ax.annotate("", xy=(x1, y), xytext=(x0, y), arrowprops=...)`: a horizontal
  line from `(x0, y)` to `(x1, y)` whose arrowhead (`-|>`) sits at `(x1, y)`. -/
  | arrowLine (x0 x1 y : ℚ)
  /-- `ax.text(x, y, tx, ..., bbox=...)`: a rounded caption box centred at
  `(x, y)` holding the already-wrapped text `tx`. -/
  | textBox (x y : ℚ) (wrapped : List Char)
deriving DecidableEq

/-- `box_text(x, y, text)`: wrap the caption with `fill(text, width=wrap)` and
draw it in a box centred at `(x, y)`.  `none` models the exception escaping if
`fill` raises. -/
def box_text (wrapW : Nat) (x y : ℚ) (text : List Char) : Option (List DrawOp) :=
  (pyFill text wrapW).map (fun tx => [DrawOp.textBox x y tx])

/-- `arrow(x0, x1, y, text)`: the annotated line (arrowhead at `(x1, y)`)
followed by `box_text((x0 + x1) / 2.0, y - 0.006, text)`. -/
def arrow (wrapW : Nat) (x0 x1 y : ℚ) (text : List Char) : Option (List DrawOp) :=
  (box_text wrapW ((x0 + x1) / 2) (y - 0.006) text).map
    (fun ops => DrawOp.arrowLine x0 x1 y :: ops)

/-- The hard-coded `ys` list behind `ys = iter([...])`: the 24 vertical
positions. -/
def ysList : List ℚ :=
  [0.96, 0.93, 0.90, 0.87, 0.84,
   0.80, 0.76, 0.72, 0.68, 0.64,
   0.60, 0.56, 0.52, 0.48, 0.44,
   0.40, 0.36, 0.32, 0.28, 0.24,
   0.20, 0.16, 0.12, 0.08]

/-- `next(ys)`: the next element of the iterator, or `none` for the
`StopIteration` raised on exhaustion. -/
def nextSlot : List ℚ → Option (ℚ × List ℚ)
  | [] => none
  | y :: ys => some (y, ys)

/-- `n` successive `next(ys)` calls; `none` if any of them raises
`StopIteration`. -/
def callNext : Nat → List ℚ → Option (List ℚ)
  | 0, _ => some []
  | n + 1, ys =>
    match nextSlot ys with
    | none => none
    | some r => (callNext n r.2).map (fun l => r.1 :: l)

/-- One step of the hard-coded sequence: either an `arrow(x0, x1, y, text)` call
or a `box_text(x, y, text)` call. -/
inductive Step
  | arrow (x0 x1 : ℚ) (text : List Char)
  | box (x : ℚ) (text : List Char)
deriving DecidableEq

/-- The 23 `y = next(ys); ...` statements of `build_diagram`, in source order,
with their captions. -/
def buildSteps : List Step :=
  [.arrow x_client x_edge "GET /api/address-lookup?pc=CB97XU&dataset=LPI&maxresults=100".toList,
   .box x_edge "WAF / Bot evaluation\nSkip via custom rule when CF-Access headers present".toList,
   .arrow x_edge x_client "If blocked → 403 Cloudflare challenge page".toList,
   .box x_edge "Access policy: Action = Service Auth\nValidate CF-Access-Client-Id/Secret (service token)".toList,
   .arrow x_edge x_client "If missing/invalid → 302 to /cdn-cgi/access/login".toList,
   .arrow x_edge x_worker "Service Auth OK → Route match /api/address-lookup/* (invoke Worker)".toList,
   .arrow x_client x_worker "OPTIONS preflight (CORS) → 204 No Content".toList,
   .box x_worker "Validate OS_PLACES_KEY • Parse + normalise postcode • Strict regex validation".toList,
   .box x_worker "Build cache key (pc/dataset/max + allow-list hash)\nCanonicalise path with trailing \x27/\x27".toList,
   .arrow x_worker x_edge "Edge cache lookup (caches.default.match)".toList,
   .arrow x_edge x_client "If HIT → 200 JSON (filtered)\nHeaders: x-edge-cache: HIT, x-allowlist-hash, server-timing".toList,
   .box x_worker "MISS → Build OS URL\nfq: LOGICAL_STATUS_CODE:1; LPI_LOGICAL_STATUS_CODE:1\npostal=1 → POSTAL_ADDRESS_CODE:(D L)".toList,
   .arrow x_worker x_os "GET /search/places/v1/postcode".toList,
   .arrow x_os x_worker "200 OK → Full JSON payload".toList,
   .box x_worker "Filter allow-list (CLASSIFICATION_CODE)\nProject to Slim (LPI/DPA) • Add LSB_PROPERTY_TYPE".toList,
   .arrow x_worker x_edge "Store at edge (caches.default.put)".toList,
   .arrow x_edge x_client "200 JSON (filtered, slim)\nHeaders: x-edge-cache: MISS; cache-control: s-maxage; server-timing".toList,
   .arrow x_os x_worker "401/403 (auth error)".toList,
   .arrow x_worker x_edge "Try STALE from edge cache".toList,
   .arrow x_edge x_client "Serve STALE 200 or 502 os_auth_failed".toList,
   .arrow x_worker x_os "Timeout/Other error on fetch".toList,
   .arrow x_worker x_edge "Try STALE from edge cache".toList,
   .arrow x_edge x_client "Serve STALE 200 or 504 os_timeout".toList]

/-- Pair each step, in order, with the y-coordinate its `y = next(ys)` pulls;
`none` models `StopIteration` aborting the run.  Also returns the slots left
unconsumed. -/
def consume : List ℚ → List Step → Option (List (ℚ × Step) × List ℚ)
  | ys, [] => some ([], ys)
  | [], _ :: _ => none
  | y :: ys, s :: ss => (consume ys ss).map (fun r => ((y, s) :: r.1, r.2))

/-- The drawing operations of a single step at height `y`. -/
def stepOps (wrapW : Nat) (y : ℚ) : Step → Option (List DrawOp)
  | .arrow x0 x1 t => arrow wrapW x0 x1 y t
  | .box x t => box_text wrapW x y t

/-- An exception aborting `build_diagram` before `fig.savefig`. -/
inductive BuildError
  /-- `StopIteration` from `next(ys)`. -/
  | slotExhausted
  /-- `ValueError` from `textwrap` (width not positive). -/
  | valueError
deriving DecidableEq

/-- The step sequence: each statement pulls one `y = next(ys)`, then renders.
Returns the operations drawn, the exception if one escaped, and the slots left
in the iterator. -/
def runSteps (wrapW : Nat) : List ℚ → List Step → List DrawOp × Option BuildError × List ℚ
  | ys, [] => ([], none, ys)
  | [], _ :: _ => ([], some .slotExhausted, [])
  | y :: ys, s :: ss =>
    match stepOps wrapW y s with
    | none => ([], some .valueError, ys)
    | some ops =>
      let r := runSteps wrapW ys ss
      (ops ++ r.1, r.2.1, r.2.2)

/-- The lane guide-lines and titles drawn by the `for x, label in lanes:` loop. -/
def laneOps : List DrawOp :=
  (lanes.map (fun p => [DrawOp.laneLine p.1, DrawOp.laneTitle p.1 p.2])).flatten

/-- An externally observable effect of a run. -/
inductive Effect
  /-- A mutation of the in-memory canvas. -/
  | draw (op : DrawOp)
  /-- `fig.savefig(output, bbox_inches="tight")`: the single file write. -/
  | save (path : String)
  /-- `print(f"Saved: {output}")`: the confirmation message. -/
  | print (msg : String)
deriving DecidableEq

/-- `build_diagram`, generalised over the y-position source (the script fixes it
to `ysList`, see `build_diagram_shipped`): draw lanes, consume the steps, and
only if no exception escaped, save the document and print the confirmation. -/
def build_diagram (wrapW : Nat) (output : String) (ys : List ℚ) :
    List Effect × Option BuildError :=
  let r := runSteps wrapW ys buildSteps
  let effs := (laneOps ++ r.1).map Effect.draw
  match r.2.1 with
  | some e => (effs, some e)
  | none => (effs ++ [Effect.save output, Effect.print ("Saved: " ++ output)], none)

/-- `build_diagram` exactly as shipped: the y positions are the hard-coded
`ysList`. -/
def build_diagram_shipped (wrapW : Nat) (output : String) :
    List Effect × Option BuildError :=
  build_diagram wrapW output ysList

/-- The `(y, step)` pairs of the shipped build (defined; the build does not in
fact exhaust the iterator, see the C9 theorem). -/
def buildPairs : List (ℚ × Step) := ((consume ysList buildSteps).getD ([], [])).1

/-- The y-coordinate consumed by step `n` of the shipped build (`0` when out of
range). -/
def stepY (n : Nat) : ℚ := (buildPairs.map Prod.fst).getD n 0

/-- A caption with its explicit line breaks replaced by spaces. -/
def nlToSpace (c : Char) : Char := if c = '\n' then ' ' else c

/-- Python `str.split()` with no argument: the maximal runs of non-whitespace
characters.  (Fuel `t.length` is sufficient: each round consumes at least one
character.) -/
def pyWordsF : Nat → List Char → List (List Char)
  | 0, _ => []
  | fuel + 1, l =>
    match l.dropWhile isWs with
    | [] => []
    | c :: rs =>
      (c :: rs).takeWhile (fun c => !isWs c)
        :: pyWordsF fuel ((c :: rs).dropWhile (fun c => !isWs c))

/-- Python `str.split()`. -/
def pyWords (t : List Char) : List (List Char) := pyWordsF t.length t

/-- Modelled from the spec's words (C7): "the original whitespace-normalized
text" -- the caption's words rejoined with single spaces, i.e. Python's
`' '.join(text.split())`.  This is the spec-side definition the wrapper's
round-trip is compared against. -/
def specNormalizeWs (t : List Char) : List Char := joinWith [' '] (pyWords t)

/-! ## Lemmas about the splitter -/

/-- The word scanner consumes at least the characters it started with. -/
theorem wordScan_ge (rest : List Char) : ∀ rev n, n ≤ wordScan rev rest n := by
  induction rest with
  | nil => intro rev n; simp [wordScan]
  | cons c rs ih =>
    intro rev n
    unfold wordScan
    split
    · exact Nat.le_refl n
    · split
      · exact Nat.le_succ n
      · split
        · exact Nat.le_refl n
        · exact Nat.le_trans (Nat.le_succ n) (ih (c :: rev) (n + 1))

/-- The splitter's tokens tile the text: concatenating them gives the input
back, provided the fuel is at least the input length. -/
theorem splitAuxF_flatten : ∀ fuel rev l, l.length ≤ fuel →
    (splitAuxF fuel rev l).flatten = l := by
  intro fuel
  induction fuel with
  | zero =>
    intro rev l hl
    rw [Nat.le_zero, List.length_eq_zero] at hl
    subst hl; rfl
  | succ fuel ih =>
    intro rev l hl
    match l with
    | [] => rfl
    | c :: rs =>
      unfold splitAuxF
      split
      · rw [List.flatten_cons, ih _ _ ?_]
        · show c :: (rs.takeWhile isWs ++ rs.dropWhile isWs) = _
          rw [List.takeWhile_append_dropWhile]
        · exact Nat.le_trans ((List.dropWhile_sublist isWs).length_le)
            (Nat.le_of_succ_le_succ hl)
      · split
        · rw [List.flatten_cons, ih _ _ ?_]
          · show c :: (rs.takeWhile (· == '-') ++ rs.dropWhile (· == '-')) = _
            rw [List.takeWhile_append_dropWhile]
          · exact Nat.le_trans ((List.dropWhile_sublist (· == '-')).length_le)
              (Nat.le_of_succ_le_succ hl)
        · rw [List.flatten_cons, ih _ _ ?_]
          · exact List.take_append_drop _ _
          · have h1 : 1 ≤ wordScan (c :: rev) rs 1 := wordScan_ge rs _ 1
            rw [List.length_drop]
            omega

/-- `_split` loses and invents nothing: its chunks concatenate to the input. -/
theorem pySplit_flatten (t : List Char) : (pySplit t).flatten = t :=
  splitAuxF_flatten t.length [] t (Nat.le_refl _)

/-! ## Lemmas about `_wrap_chunks` -/

theorem sumLen_append (a b : List (List Char)) :
    sumLen (a ++ b) = sumLen a + sumLen b := by
  simp [sumLen]

theorem sumLen_flatten (ls : List (List Char)) : ls.flatten.length = sumLen ls :=
  List.length_flatten ls

theorem sumLen_dropLast_le (ls : List (List Char)) : sumLen ls.dropLast ≤ sumLen ls := by
  induction ls with
  | nil => exact Nat.le_refl _
  | cons c cs ih =>
    cases cs with
    | nil => simp [sumLen]
    | cons d ds =>
      simp only [List.dropLast_cons₂, sumLen, List.map_cons, List.sum_cons] at *
      omega

/-- The greedy inner loop splits its input into the taken part and the rest. -/
theorem takeGreedy_append (w : Nat) :
    ∀ (cs : List (List Char)) (n : Nat),
      (takeGreedy w n cs).1 ++ (takeGreedy w n cs).2 = cs := by
  intro cs
  induction cs with
  | nil => intro n; rfl
  | cons c cs ih =>
    intro n
    unfold takeGreedy
    split
    · simpa using ih (n + c.length)
    · rfl

/-- The greedy inner loop never exceeds the width budget. -/
theorem takeGreedy_sumLen (w : Nat) :
    ∀ (cs : List (List Char)) (n : Nat), n ≤ w →
      n + sumLen (takeGreedy w n cs).1 ≤ w := by
  intro cs
  induction cs with
  | nil => intro n hn; simpa [takeGreedy, sumLen] using hn
  | cons c cs ih =>
    intro n hn
    unfold takeGreedy
    split
    · have := ih (n + c.length) (by omega)
      simp only [sumLen, List.map_cons, List.sum_cons] at *
      omega
    · simpa [sumLen] using hn

theorem rfindHyphen_lt_length : ∀ (l : List Char) (h : Nat),
    rfindHyphen l = some h → h < l.length := by
  intro l
  induction l with
  | nil => intro h hh; simp [rfindHyphen] at hh
  | cons c rs ih =>
    intro h hh
    unfold rfindHyphen at hh
    revert hh
    split
    · rename_i h' hh'
      intro hh
      have := ih h' hh'
      simp only [Option.some.injEq] at hh
      subst hh
      simp only [List.length_cons]
      omega
    · split
      · intro hh
        simp only [Option.some.injEq] at hh
        subst hh
        simp
      · intro hh; exact absurd hh (by simp)

/-- `_handle_long_word` splits the chunk without losing characters. -/
theorem handleLongWord_append (w n : Nat) (c : List Char) :
    (handleLongWord w n c).1 ++ (handleLongWord w n c).2 = c :=
  List.take_append_drop _ _

/-- The split index stays within the space left on the line. -/
theorem hlwEnd_le (w n : Nat) (c : List Char) :
    hlwEnd w n c ≤ if w < 1 then 1 else w - n := by
  simp only [hlwEnd]
  set s := if w < 1 then 1 else w - n with hs
  split
  · split
    · rename_i h hh
      split
      · have hlt := rfindHyphen_lt_length _ _ hh
        simp only [List.length_take] at hlt
        omega
      · exact Nat.le_refl _
    · exact Nat.le_refl _
  · exact Nat.le_refl _

/-- The split index is positive whenever the space left is. -/
theorem hlwEnd_pos (w n : Nat) (c : List Char)
    (h : 1 ≤ if w < 1 then 1 else w - n) : 1 ≤ hlwEnd w n c := by
  simp only [hlwEnd]
  set s := if w < 1 then 1 else w - n with hs
  split
  · split
    · split
      · omega
      · exact h
    · exact h
  · exact h

/-- For a positive width, the piece `_handle_long_word` puts on the current line
fits in the space that is left. -/
theorem handleLongWord_length_le (w n : Nat) (c : List Char) (hw : 1 ≤ w) :
    (handleLongWord w n c).1.length ≤ w - n := by
  have hend := hlwEnd_le w n c
  rw [if_neg (by omega)] at hend
  show (c.take _).length ≤ w - n
  rw [List.length_take]
  omega

/-- The characters of a Python string that `str.strip()` would not remove: the
payload preserved by wrapping. -/
def visible (l : List Char) : List Char := l.filter (fun c => !isStripSpace c)

theorem visible_append (a b : List Char) :
    visible (a ++ b) = visible a ++ visible b := by
  simp [visible]

theorem visible_of_isBlank {c : List Char} (h : isBlank c = true) : visible c = [] := by
  rw [visible, List.filter_eq_nil_iff]
  intro a ha
  have := List.all_eq_true.mp h a ha
  simp [this]

theorem sumLen_singleton (x : List Char) : sumLen [x] = x.length := by
  simp [sumLen]

theorem msr_append (a b : List (List Char)) : msr (a ++ b) = msr a + msr b := by
  simp [msr]

theorem msr_cons (c : List Char) (cs : List (List Char)) :
    msr (c :: cs) = c.length + 1 + msr cs := by
  simp only [msr, List.map_cons, List.sum_cons]

theorem msr_pos {chunks : List (List Char)} (h : chunks ≠ []) : 1 ≤ msr chunks := by
  match chunks with
  | c :: cs => rw [msr_cons]; omega

/-- Dropping the leading blank chunk either does nothing or removes one blank
chunk (shrinking the measure, preserving the visible characters). -/
theorem dropLeadingBlank_cases (b : Bool) (chunks : List (List Char)) :
    dropLeadingBlank b chunks = chunks ∨
      (msr (dropLeadingBlank b chunks) < msr chunks ∧
        visible (dropLeadingBlank b chunks).flatten = visible chunks.flatten) := by
  match chunks with
  | [] => exact Or.inl rfl
  | c :: cs =>
    simp only [dropLeadingBlank]
    split
    · rename_i hb
      refine Or.inr ⟨?_, ?_⟩
      · rw [msr_cons]; omega
      · rw [List.flatten_cons, visible_append,
          visible_of_isBlank ((Bool.and_eq_true _ _).mp hb).2, List.nil_append]
    · exact Or.inl rfl

theorem takeGreedy_reject (w n : Nat) (c : List Char) (cs : List (List Char))
    (h : ¬ n + c.length ≤ w) : takeGreedy w n (c :: cs) = ([], c :: cs) := by
  simp [takeGreedy, h]

theorem takeGreedy_fst_nil (w n : Nat) (c : List Char) (cs : List (List Char))
    (h : (takeGreedy w n (c :: cs)).1 = []) : ¬ n + c.length ≤ w := by
  intro hle
  rw [show takeGreedy w n (c :: cs)
      = (c :: (takeGreedy w (n + c.length) cs).1, (takeGreedy w (n + c.length) cs).2) by
    simp [takeGreedy, hle]] at h
  exact absurd h (by simp)

/-- `fillLine` when the greedy loop consumed everything. -/
theorem fillLine_of_nil (w : Nat) (cs : List (List Char))
    (heq : (takeGreedy w 0 cs).2 = []) :
    fillLine w cs = ((takeGreedy w 0 cs).1, []) := by
  simp only [fillLine, heq]

/-- `fillLine` when the next chunk does not exceed the whole width. -/
theorem fillLine_of_fits (w : Nat) (cs : List (List Char)) {c : List Char}
    {cs' : List (List Char)} (heq : (takeGreedy w 0 cs).2 = c :: cs')
    (hle : ¬ w < c.length) :
    fillLine w cs = ((takeGreedy w 0 cs).1, c :: cs') := by
  simp only [fillLine, heq, if_neg hle]

/-- `fillLine` when the next chunk is longer than the whole width
(`_handle_long_word` fires). -/
theorem fillLine_of_long (w : Nat) (cs : List (List Char)) {c : List Char}
    {cs' : List (List Char)} (heq : (takeGreedy w 0 cs).2 = c :: cs')
    (hlt : w < c.length) :
    fillLine w cs
      = ((takeGreedy w 0 cs).1 ++ [(handleLongWord w (sumLen (takeGreedy w 0 cs).1) c).1],
         (handleLongWord w (sumLen (takeGreedy w 0 cs).1) c).2 :: cs') := by
  simp only [fillLine, heq, if_pos hlt]

/-- `fillLine` only redistributes characters between the line and the rest. -/
theorem fillLine_flatten (w : Nat) (cs : List (List Char)) :
    (fillLine w cs).1.flatten ++ (fillLine w cs).2.flatten = cs.flatten := by
  have happ : cs.flatten
      = (takeGreedy w 0 cs).1.flatten ++ (takeGreedy w 0 cs).2.flatten := by
    conv_lhs => rw [← takeGreedy_append w cs 0]
    rw [List.flatten_append]
  rcases heq : (takeGreedy w 0 cs).2 with _ | ⟨c, cs'⟩
  · rw [fillLine_of_nil w cs heq, happ, heq]
  · by_cases hlt : w < c.length
    · rw [fillLine_of_long w cs heq hlt, happ, heq]
      have hc := handleLongWord_append w (sumLen (takeGreedy w 0 cs).1) c
      conv_rhs => rw [List.flatten_cons, ← hc]
      simp
    · rw [fillLine_of_fits w cs heq hlt, happ, heq]

/-- For a positive width the line produced by `fillLine` fits within it. -/
theorem fillLine_sumLen (w : Nat) (cs : List (List Char)) (hw : 1 ≤ w) :
    sumLen (fillLine w cs).1 ≤ w := by
  have htg : sumLen (takeGreedy w 0 cs).1 ≤ w := by
    have := takeGreedy_sumLen w cs 0 (by omega)
    omega
  rcases heq : (takeGreedy w 0 cs).2 with _ | ⟨c, cs'⟩
  · rw [fillLine_of_nil w cs heq]
    exact htg
  · by_cases hlt : w < c.length
    · rw [fillLine_of_long w cs heq hlt]
      have hlw := handleLongWord_length_le w (sumLen (takeGreedy w 0 cs).1) c hw
      show sumLen (_ ++ [_]) ≤ w
      rw [sumLen_append, sumLen_singleton]
      omega
    · rw [fillLine_of_fits w cs heq hlt]
      exact htg

/-- The chunks left over by `fillLine` are at most those the greedy loop left. -/
theorem fillLine_msr_snd_le (w : Nat) (cs : List (List Char)) :
    msr (fillLine w cs).2 ≤ msr (takeGreedy w 0 cs).2 := by
  rcases heq : (takeGreedy w 0 cs).2 with _ | ⟨c, cs'⟩
  · rw [fillLine_of_nil w cs heq]
  · by_cases hlt : w < c.length
    · rw [fillLine_of_long w cs heq hlt]
      show msr (_ :: cs') ≤ msr (c :: cs')
      rw [msr_cons, msr_cons]
      have hdrop : ((handleLongWord w (sumLen (takeGreedy w 0 cs).1) c).2).length
          ≤ c.length := by
        show (c.drop _).length ≤ c.length
        simp
      omega
    · rw [fillLine_of_fits w cs heq hlt]

theorem fillLine_msr_le (w : Nat) (cs : List (List Char)) :
    msr (fillLine w cs).2 ≤ msr cs := by
  have happ : msr cs = msr (takeGreedy w 0 cs).1 + msr (takeGreedy w 0 cs).2 := by
    conv_lhs => rw [← takeGreedy_append w cs 0]
    exact msr_append _ _
  have := fillLine_msr_snd_le w cs
  omega

theorem fillLine_msr_lt (w : Nat) (cs : List (List Char)) (h : cs ≠ []) :
    msr (fillLine w cs).2 < msr cs := by
  cases cs with
  | nil => exact absurd rfl h
  | cons c cs0 =>
    rcases hcs : (takeGreedy w 0 (c :: cs0)).1 with _ | ⟨c₀, tl⟩
    · -- the greedy loop accepted nothing: the head chunk is longer than the width
      have hrej := takeGreedy_fst_nil w 0 c cs0 hcs
      have htg : takeGreedy w 0 (c :: cs0) = ([], c :: cs0) :=
        takeGreedy_reject w 0 c cs0 hrej
      have hwlt : w < c.length := by omega
      have heq2 : (takeGreedy w 0 (c :: cs0)).2 = c :: cs0 := by rw [htg]
      have hpos : 1 ≤ hlwEnd w (sumLen (takeGreedy w 0 (c :: cs0)).1) c := by
        apply hlwEnd_pos
        rw [hcs]
        show 1 ≤ if w < 1 then 1 else w - sumLen ([] : List (List Char))
        have h0 : sumLen ([] : List (List Char)) = 0 := rfl
        rw [h0]
        split <;> omega
      rw [fillLine_of_long w (c :: cs0) heq2 hwlt]
      show msr ((c.drop (hlwEnd w (sumLen (takeGreedy w 0 (c :: cs0)).1) c)) :: cs0)
          < msr (c :: cs0)
      rw [msr_cons, msr_cons, List.length_drop]
      omega
    · -- at least one chunk moved to the line: the rest shrank by that chunk
      have happ : msr (c :: cs0)
          = msr (takeGreedy w 0 (c :: cs0)).1 + msr (takeGreedy w 0 (c :: cs0)).2 := by
        conv_lhs => rw [← takeGreedy_append w (c :: cs0) 0]
        exact msr_append _ _
      have h1 : 1 ≤ msr (takeGreedy w 0 (c :: cs0)).1 := by rw [hcs, msr_cons]; omega
      have h3 := fillLine_msr_snd_le w (c :: cs0)
      omega

theorem dropTrailingBlank_sumLen_le (cur : List (List Char)) :
    sumLen (dropTrailingBlank cur) ≤ sumLen cur := by
  simp only [dropTrailingBlank]
  split
  · split
    · exact sumLen_dropLast_le cur
    · exact Nat.le_refl _
  · exact Nat.le_refl _

theorem dropTrailingBlank_visible (cur : List (List Char)) :
    visible (dropTrailingBlank cur).flatten = visible cur.flatten := by
  simp only [dropTrailingBlank]
  split
  · rename_i last hlast
    split
    · rename_i hblank
      conv_rhs => rw [← List.dropLast_append_getLast? last hlast]
      rw [List.flatten_append, visible_append]
      simp [visible_of_isBlank hblank]
    · rfl
  · rfl

/-- A line emitted by one outer-loop iteration fits in a positive width. -/
theorem buildOneLine_length (w : Nat) (b : Bool) (chunks : List (List Char))
    (hw : 1 ≤ w) {line : List Char}
    (hline : (buildOneLine w b chunks).1 = some line) : line.length ≤ w := by
  simp only [buildOneLine] at hline
  split at hline
  · exact absurd hline (by simp)
  · have hinj := Option.some.inj hline
    rw [← hinj, List.length_flatten]
    show sumLen _ ≤ w
    calc sumLen (dropTrailingBlank (fillLine w (dropLeadingBlank b chunks)).1)
        ≤ sumLen (fillLine w (dropLeadingBlank b chunks)).1 :=
          dropTrailingBlank_sumLen_le _
      _ ≤ w := fillLine_sumLen w _ hw

/-- One outer-loop iteration always shrinks the chunk measure: the loop
terminates, and fuel `msr chunks` never runs out. -/
theorem buildOneLine_msr_lt (w : Nat) (b : Bool) (chunks : List (List Char))
    (h : chunks ≠ []) : msr (buildOneLine w b chunks).2 < msr chunks := by
  show msr (fillLine w (dropLeadingBlank b chunks)).2 < msr chunks
  rcases dropLeadingBlank_cases b chunks with heq | ⟨hlt, _⟩
  · rw [heq]
    exact fillLine_msr_lt w chunks h
  · calc msr (fillLine w (dropLeadingBlank b chunks)).2
        ≤ msr (dropLeadingBlank b chunks) := fillLine_msr_le w _
      _ < msr chunks := hlt

/-- One outer-loop iteration preserves the visible characters, distributed
between the emitted line and the remaining chunks. -/
theorem buildOneLine_visible (w : Nat) (b : Bool) (chunks : List (List Char)) :
    visible ((buildOneLine w b chunks).1.getD [] ++ (buildOneLine w b chunks).2.flatten)
      = visible chunks.flatten := by
  have hdlb : visible (dropLeadingBlank b chunks).flatten = visible chunks.flatten := by
    rcases dropLeadingBlank_cases b chunks with heq | ⟨_, hvis⟩
    · rw [heq]
    · exact hvis
  have hfl := fillLine_flatten w (dropLeadingBlank b chunks)
  simp only [buildOneLine]
  split
  · rename_i hempty
    have h1 : dropTrailingBlank (fillLine w (dropLeadingBlank b chunks)).1 = [] := by
      simpa [List.isEmpty_iff] using hempty
    have h2 : visible (fillLine w (dropLeadingBlank b chunks)).1.flatten = [] := by
      rw [← dropTrailingBlank_visible, h1]
      rfl
    show visible ([] ++ (fillLine w (dropLeadingBlank b chunks)).2.flatten)
        = visible chunks.flatten
    calc visible ([] ++ (fillLine w (dropLeadingBlank b chunks)).2.flatten)
        = visible (fillLine w (dropLeadingBlank b chunks)).2.flatten := by
          rw [List.nil_append]
      _ = visible ((fillLine w (dropLeadingBlank b chunks)).1.flatten
            ++ (fillLine w (dropLeadingBlank b chunks)).2.flatten) := by
          rw [visible_append, h2, List.nil_append]
      _ = visible (dropLeadingBlank b chunks).flatten := by rw [hfl]
      _ = visible chunks.flatten := hdlb
  · show visible ((dropTrailingBlank (fillLine w (dropLeadingBlank b chunks)).1).flatten
        ++ (fillLine w (dropLeadingBlank b chunks)).2.flatten) = visible chunks.flatten
    calc visible ((dropTrailingBlank (fillLine w (dropLeadingBlank b chunks)).1).flatten
          ++ (fillLine w (dropLeadingBlank b chunks)).2.flatten)
        = visible (dropTrailingBlank (fillLine w (dropLeadingBlank b chunks)).1).flatten
            ++ visible (fillLine w (dropLeadingBlank b chunks)).2.flatten :=
          visible_append _ _
      _ = visible (fillLine w (dropLeadingBlank b chunks)).1.flatten
            ++ visible (fillLine w (dropLeadingBlank b chunks)).2.flatten := by
          rw [dropTrailingBlank_visible]
      _ = visible ((fillLine w (dropLeadingBlank b chunks)).1.flatten
            ++ (fillLine w (dropLeadingBlank b chunks)).2.flatten) :=
          (visible_append _ _).symm
      _ = visible (dropLeadingBlank b chunks).flatten := by rw [hfl]
      _ = visible chunks.flatten := hdlb

/-- Every line the outer loop produces fits in a positive width (the fuel
hypothesis is satisfied at the call site by `buildOneLine_msr_lt`). -/
theorem wrapLoopF_length (w : Nat) (hw : 1 ≤ w) :
    ∀ (fuel : Nat) (chunks : List (List Char)) (b : Bool), msr chunks ≤ fuel →
      ∀ l ∈ wrapLoopF w fuel b chunks, l.length ≤ w := by
  intro fuel
  induction fuel with
  | zero =>
    intro chunks b hf l hl
    simp [wrapLoopF] at hl
  | succ fuel ih =>
    intro chunks b hf l hl
    match chunks with
    | [] => simp [wrapLoopF] at hl
    | c :: cs =>
      have hm := buildOneLine_msr_lt w b (c :: cs) (by simp)
      simp only [wrapLoopF] at hl
      revert hl
      split
      · rename_i line hline
        intro hl
        rcases List.mem_cons.mp hl with rfl | hl
        · exact buildOneLine_length w b (c :: cs) hw hline
        · exact ih _ true (by omega) l hl
      · intro hl
        exact ih _ b (by omega) l hl

/-- The outer loop preserves the visible characters of its chunks. -/
theorem wrapLoopF_visible (w : Nat) :
    ∀ (fuel : Nat) (chunks : List (List Char)) (b : Bool), msr chunks ≤ fuel →
      visible (wrapLoopF w fuel b chunks).flatten = visible chunks.flatten := by
  intro fuel
  induction fuel with
  | zero =>
    intro chunks b hf
    have : chunks = [] := by
      by_contra hne
      have := msr_pos hne
      omega
    subst this
    rfl
  | succ fuel ih =>
    intro chunks b hf
    match chunks with
    | [] => rfl
    | c :: cs =>
      have hm := buildOneLine_msr_lt w b (c :: cs) (by simp)
      have hvis := buildOneLine_visible w b (c :: cs)
      simp only [wrapLoopF]
      split
      · rename_i line hline
        rw [hline] at hvis
        rw [List.flatten_cons, visible_append, ih _ true (by omega), ← visible_append]
        exact hvis
      · rename_i hline
        rw [hline] at hvis
        rw [ih _ b (by omega)]
        rw [show (none : Option (List Char)).getD [] = [] from rfl, List.nil_append] at hvis
        exact hvis

/-! ## Lemmas about `_munge_whitespace` and joining -/

theorem isStripSpace_of_isWs {c : Char} (h : isWs c = true) : isStripSpace c = true := by
  simp only [isWs, Bool.or_eq_true, beq_iff_eq] at h
  rcases h with ((((h | h) | h) | h) | h) | h <;> subst h <;> decide

theorem visible_cons (c : Char) (l : List Char) :
    visible (c :: l) = if isStripSpace c then visible l else c :: visible l := by
  simp only [visible, List.filter_cons]
  rcases hc : isStripSpace c <;> simp [hc]

theorem visible_replicate_space (n : Nat) :
    visible (List.replicate n ' ') = [] := by
  induction n with
  | zero => rfl
  | succ n ih => rw [List.replicate_succ, visible_cons, if_pos (by decide)]; exact ih

theorem visible_expandTabsAux (l : List Char) :
    ∀ col, visible (expandTabsAux col l) = visible l := by
  induction l with
  | nil => intro col; rfl
  | cons c cs ih =>
    intro col
    simp only [expandTabsAux]
    split
    · rename_i htab
      have hc : c = '\t' := by simpa using htab
      subst hc
      rw [visible_append, visible_replicate_space, List.nil_append, ih,
        visible_cons, if_pos (by decide)]
    · split
      · rw [visible_cons, visible_cons, ih]
      · rw [visible_cons, visible_cons, ih]

theorem visible_map_mungeChar (l : List Char) :
    visible (l.map mungeChar) = visible l := by
  induction l with
  | nil => rfl
  | cons c cs ih =>
    show visible (mungeChar c :: cs.map mungeChar) = visible (c :: cs)
    by_cases hws : isWs c
    · have h1 : mungeChar c = ' ' := by simp [mungeChar, hws]
      have h2 : isStripSpace c = true := isStripSpace_of_isWs hws
      rw [h1, visible_cons, if_pos (by decide), visible_cons, if_pos h2]
      exact ih
    · have h1 : mungeChar c = c := by simp [mungeChar, hws]
      rw [h1, visible_cons, visible_cons, ih]

/-- Whitespace munging does not touch the visible characters. -/
theorem visible_munge (l : List Char) : visible (munge l) = visible l := by
  rw [munge, visible_map_mungeChar, visible_expandTabsAux]

/-- After munging, every character of the sixfold whitespace class has become a
plain space. -/
theorem munge_ws_eq_space (l : List Char) :
    ∀ c ∈ munge l, isWs c = true → c = ' ' := by
  intro c hc hws
  rw [munge] at hc
  rcases List.mem_map.mp hc with ⟨a, _, ha⟩
  rw [← ha]
  rw [← ha] at hws
  by_cases h : isWs a
  · simp [mungeChar, h]
  · rw [show mungeChar a = a from by simp [mungeChar, h]] at hws
    exact absurd hws (by simp [h])

theorem visible_joinWith (sep : List Char)
    (hsep : ∀ c ∈ sep, isStripSpace c = true) :
    ∀ ls : List (List Char), visible (joinWith sep ls) = visible ls.flatten := by
  have hsepnil : visible sep = [] := by
    rw [visible, List.filter_eq_nil_iff]
    intro a ha
    simp [hsep a ha]
  intro ls
  induction ls with
  | nil => rfl
  | cons l ls ih =>
    cases ls with
    | nil =>
      show visible l = visible (l ++ [].flatten)
      simp
    | cons l' ls' =>
      show visible (l ++ sep ++ joinWith sep (l' :: ls')) = _
      rw [List.flatten_cons, visible_append, visible_append, visible_append,
        hsepnil, List.append_nil, ih]

/-! ## Top-level properties of the wrapper -/

/-- `wrap` succeeds exactly on positive widths. -/
theorem pyWrap_isSome (t : List Char) (w : Nat) :
    (pyWrap t w).isSome = true ↔ w ≠ 0 := by
  rcases w with _ | w <;> simp [pyWrap]

/-- Every line `wrap` returns fits within the requested width. -/
theorem pyWrap_line_length {t : List Char} {w : Nat} {ls : List (List Char)}
    (h : pyWrap t w = some ls) : ∀ l ∈ ls, l.length ≤ w := by
  rw [pyWrap] at h
  split at h
  · exact absurd h (by simp)
  · rename_i hw
    have hinj := Option.some.inj h
    rw [← hinj]
    exact wrapLoopF_length w (by omega) _ _ false (Nat.le_refl _)

/-- `wrap` preserves the visible characters of the caption, in order. -/
theorem pyWrap_visible {t : List Char} {w : Nat} {ls : List (List Char)}
    (h : pyWrap t w = some ls) : visible ls.flatten = visible t := by
  rw [pyWrap] at h
  split at h
  · exact absurd h (by simp)
  · have hinj := Option.some.inj h
    rw [← hinj, wrapLoopF_visible w _ _ false (Nat.le_refl _), pySplit_flatten,
      visible_munge]

/-- `fill` raises only for a non-positive width. -/
theorem pyFill_isSome (t : List Char) {w : Nat} (hw : w ≠ 0) :
    (pyFill t w).isSome = true := by
  have h := (pyWrap_isSome t w).mpr hw
  rw [pyFill]
  rcases hp : pyWrap t w with _ | ls
  · rw [hp] at h
    simp at h
  · rfl

/-- With a positive wrap width, rendering a step never raises. -/
theorem stepOps_isSome (wrapW : Nat) (hw : wrapW ≠ 0) (y : ℚ) (s : Step) :
    (stepOps wrapW y s).isSome = true := by
  cases s with
  | arrow x0 x1 t =>
    have h := pyFill_isSome t (w := wrapW) hw
    simp only [stepOps, arrow, box_text]
    rcases hp : pyFill t wrapW with _ | tx
    · rw [hp] at h
      simp at h
    · rfl
  | box x t =>
    have h := pyFill_isSome t (w := wrapW) hw
    simp only [stepOps, box_text]
    rcases hp : pyFill t wrapW with _ | tx
    · rw [hp] at h
      simp at h
    · rfl

/-- With a positive wrap width and enough slots, the step loop completes with no
exception and leaves exactly the slots past the step count. -/
theorem runSteps_ok (wrapW : Nat) (hw : wrapW ≠ 0) :
    ∀ (ss : List Step) (ys : List ℚ), ss.length ≤ ys.length →
      (runSteps wrapW ys ss).2.1 = none ∧
        (runSteps wrapW ys ss).2.2 = ys.drop ss.length := by
  intro ss
  induction ss with
  | nil =>
    intro ys h
    cases ys <;> exact ⟨rfl, rfl⟩
  | cons s ss ih =>
    intro ys h
    match ys with
    | [] => simp at h
    | y :: ys' =>
      have hs := stepOps_isSome wrapW hw y s
      rcases ho : stepOps wrapW y s with _ | ops
      · rw [ho] at hs
        simp at hs
      · simp only [runSteps, ho]
        have := ih ys' (by simpa using h)
        exact ⟨this.1, by simpa using this.2⟩

/-- Adjacent entries of a `Chain'` compare via `getD`, under the index bound. -/
theorem chain'_getD {R : ℚ → ℚ → Prop} (d : ℚ) :
    ∀ (l : List ℚ), List.Chain' R l →
      ∀ n, n + 1 < l.length → R (l.getD n d) (l.getD (n + 1) d) := by
  intro l
  induction l with
  | nil => intro _ n h; simp at h
  | cons a l ih =>
    intro hc n h
    match l, h with
    | b :: l', h =>
      have hc' := List.chain'_cons.mp hc
      match n with
      | 0 => exact hc'.1
      | n + 1 =>
        exact ih hc'.2 n (by simpa using h)

/-- Texts without tabs munge to a per-character whitespace replacement, so the
wrapper cannot distinguish a newline from a space. -/
theorem munge_nlToSpace {t : List Char} (h : '\t' ∉ t) :
    munge (t.map nlToSpace) = munge t := by
  have hexp : ∀ (l : List Char), '\t' ∉ l → ∀ col, expandTabsAux col l = l := by
    intro l
    induction l with
    | nil => intro _ _; rfl
    | cons c cs ih =>
      intro hn col
      have hc : ¬ c = '\t' := fun hh => hn (hh ▸ List.mem_cons_self c cs)
      have hcs : '\t' ∉ cs := fun hh => hn (List.mem_cons_of_mem c hh)
      simp only [expandTabsAux, beq_iff_eq, hc, if_false]
      split
      · rw [ih hcs 0]
      · rw [ih hcs (col + 1)]
  have hnot2 : '\t' ∉ t.map nlToSpace := by
    intro hmem
    rcases List.mem_map.mp hmem with ⟨a, ha, haeq⟩
    by_cases han : a = '\n'
    · rw [han] at haeq
      exact absurd haeq (by decide)
    · rw [show nlToSpace a = a from by simp [nlToSpace, han]] at haeq
      exact h (haeq ▸ ha)
  rw [munge, munge, hexp t h 0, hexp (t.map nlToSpace) hnot2 0, List.map_map]
  apply List.map_congr_left
  intro a _
  by_cases han : a = '\n'
  · subst han
    rfl
  · show mungeChar (nlToSpace a) = mungeChar a
    rw [show nlToSpace a = a from by simp [nlToSpace, han]]

/-! ## The claims -/

/-- C1, counterexample: the slot list is not an evenly spaced arithmetic
sequence -- the gap between the first two slots (0.96 − 0.93 = 0.03) differs
from the gap between the fifth and sixth (0.84 − 0.80 = 0.04), so there is no
single `stepSpacing` and the claimed count formula has no instance. -/
theorem c1_counterexample :
    ¬ (ysList.getD 0 0 - ysList.getD 1 0 = ysList.getD 4 0 - ysList.getD 5 0) := by
  norm_num [ysList]

/-- C1, amended: the slot list is the fixed, hard-coded 24-element strictly
decreasing list from 0.96 down to 0.08, spaced 0.03 between the first five
entries and 0.04 thereafter; `next()` succeeds exactly 24 times (yielding the
list in order) and a 25th call raises `StopIteration`. -/
theorem c1_theorem :
    ysList.length = 24 ∧
    List.Chain' (· > ·) ysList ∧
    ysList.getD 0 0 - ysList.getD 1 0 = 3 / 100 ∧
    ysList.getD 4 0 - ysList.getD 5 0 = 4 / 100 ∧
    callNext 24 ysList = some ysList ∧
    callNext 25 ysList = none := by
  refine ⟨rfl, ?_, by norm_num [ysList], by norm_num [ysList], rfl, rfl⟩
  norm_num [ysList, List.chain'_cons]

/-- C2, counterexample: a single word longer than the width does not occupy its
own line unmodified -- `wrap("abcdef", 3)` splits the word into `["abc",
"def"]`. -/
theorem c2_counterexample :
    pyWrap "abcdef".toList 3 = some ["abc".toList, "def".toList] ∧
    pyWrap "abcdef".toList 3 ≠ some ["abcdef".toList] := by
  exact ⟨by decide, by decide⟩

/-- C2, amended: for every caption and positive wrap width, every line the
wrapper returns is at most `width` characters long -- with the default
`break_long_words=True` a word longer than the width is split across lines
(preferring a split after a hyphen) rather than being emitted unmodified, and
hyphenated words may also be broken after a hyphen. -/
theorem c2_theorem (text : String) (width : Nat) (ls : List (List Char))
    (h : pyWrap text.toList width = some ls) : ∀ l ∈ ls, l.length ≤ width :=
  pyWrap_line_length h

/-- C2, witness at `("abcdef", 3)`. -/
theorem c2_witness :
    pyWrap "abcdef".toList 3 = some ["abc".toList, "def".toList] ∧
    ∀ l ∈ ["abc".toList, "def".toList], l.length ≤ 3 :=
  ⟨by decide, c2_theorem ("abcdef") 3 _ (by decide)⟩

/-- C3: the build is all-or-nothing.  If any step raises, the trace contains no
file write and no confirmation message; if no step raises, the trace is the
drawing operations followed by exactly the file write and then the confirmation
naming the output path. -/
theorem c3_theorem (wrapW : Nat) (output : String) (ys : List ℚ) :
    ((build_diagram wrapW output ys).2.isSome = true →
      ∀ e ∈ (build_diagram wrapW output ys).1,
        (∀ p, e ≠ Effect.save p) ∧ (∀ m, e ≠ Effect.print m)) ∧
    ((build_diagram wrapW output ys).2 = none →
      ∃ draws : List DrawOp,
        (build_diagram wrapW output ys).1
          = draws.map Effect.draw
            ++ [Effect.save output, Effect.print ("Saved: " ++ output)]) := by
  rcases herr : (runSteps wrapW ys buildSteps).2.1 with _ | e
  · simp only [build_diagram, herr]
    constructor
    · intro hsome
      simp at hsome
    · intro _
      exact ⟨laneOps ++ (runSteps wrapW ys buildSteps).1, by simp⟩
  · simp only [build_diagram, herr]
    constructor
    · intro _ eff heff
      rcases List.mem_map.mp heff with ⟨op, _, rfl⟩
      exact ⟨fun p => by simp, fun m => by simp⟩
    · intro hnone
      simp at hnone

/-- C3, witness: with an empty slot source the run aborts and the trace has no
save; with the shipped slots it ends in exactly save-then-print. -/
theorem c3_witness :
    (∀ e ∈ (build_diagram 50 "postcode-flow.pdf" []).1,
      (∀ p, e ≠ Effect.save p) ∧ (∀ m, e ≠ Effect.print m)) ∧
    (∃ draws : List DrawOp,
      (build_diagram 50 "postcode-flow.pdf" ysList).1
        = draws.map Effect.draw
          ++ [Effect.save "postcode-flow.pdf",
              Effect.print ("Saved: " ++ "postcode-flow.pdf")]) := by
  constructor
  · exact (c3_theorem 50 "postcode-flow.pdf" []).1 (by decide)
  · refine (c3_theorem 50 "postcode-flow.pdf" ysList).2 ?_
    show (build_diagram 50 "postcode-flow.pdf" ysList).2 = none
    have h := runSteps_ok 50 (by decide) buildSteps ysList (by decide)
    simp only [build_diagram, h.1]

/-- C4: the shipped build pairs step `n` with the `n`-th slot, in order, and the
consumed y-coordinates are strictly decreasing, so every step renders strictly
above its successor. -/
theorem c4_theorem :
    buildPairs.map Prod.fst = ysList.take buildSteps.length ∧
    (∀ n, n + 1 < buildSteps.length → stepY n > stepY (n + 1)) := by
  refine ⟨rfl, ?_⟩
  intro n h
  have hch : List.Chain' (· > ·) (buildPairs.map Prod.fst) := by
    have he : buildPairs.map Prod.fst
        = [0.96, 0.93, 0.90, 0.87, 0.84, 0.80, 0.76, 0.72, 0.68, 0.64, 0.60,
           0.56, 0.52, 0.48, 0.44, 0.40, 0.36, 0.32, 0.28, 0.24, 0.20, 0.16,
           0.12] := rfl
    rw [he]
    norm_num [List.chain'_cons]
  have hlen : (buildPairs.map Prod.fst).length = buildSteps.length := rfl
  exact chain'_getD 0 _ hch n (by rw [hlen]; exact h)

/-- C4, witness at adjacent steps 0 and 1. -/
theorem c4_witness :
    (0 : Nat) + 1 < buildSteps.length ∧ stepY 0 > stepY 1 :=
  ⟨by decide, c4_theorem.2 0 (by decide)⟩

/-- C5: for every pair of x-coordinates, drawing the arrow in either direction
swaps the line endpoints (the arrowhead sits at the second coordinate) while
the caption box is placed by the identical rule: centred at the midpoint
`(x0 + x1) / 2`, at the same fixed offset `0.006` below the line. -/
theorem c5_theorem (wrapW : Nat) (x0 x1 y : ℚ) (text : List Char)
    (tx : List Char) (h : pyFill text wrapW = some tx) :
    arrow wrapW x0 x1 y text
        = some [DrawOp.arrowLine x0 x1 y,
                DrawOp.textBox ((x0 + x1) / 2) (y - 0.006) tx] ∧
    arrow wrapW x1 x0 y text
        = some [DrawOp.arrowLine x1 x0 y,
                DrawOp.textBox ((x0 + x1) / 2) (y - 0.006) tx] := by
  constructor
  · simp [arrow, box_text, h]
  · rw [show x0 + x1 = x1 + x0 from add_comm x0 x1]
    simp [arrow, box_text, h]

/-- C5, witness at the Frontend/Edge lane pair. -/
theorem c5_witness :
    pyFill "GET /resource".toList 50 = some "GET /resource".toList ∧
    (arrow 50 x_client x_edge 0.5 "GET /resource".toList
        = some [DrawOp.arrowLine x_client x_edge 0.5,
                DrawOp.textBox ((x_client + x_edge) / 2) ((0.5 : ℚ) - 0.006)
                  "GET /resource".toList] ∧
     arrow 50 x_edge x_client 0.5 "GET /resource".toList
        = some [DrawOp.arrowLine x_edge x_client 0.5,
                DrawOp.textBox ((x_client + x_edge) / 2) ((0.5 : ℚ) - 0.006)
                  "GET /resource".toList]) :=
  ⟨by decide, c5_theorem 50 x_client x_edge 0.5 "GET /resource".toList
    "GET /resource".toList (by decide)⟩

/-- C6: the four lanes sit at x = 0.10, 0.37, 0.65, 0.90; the first three build
steps consume the first three slots 0.96 > 0.93 > 0.90, and render as: an arrow
line from 0.10 to 0.37 (arrowhead at 0.37) with its caption box, a caption box
only at 0.37 (no line), and an arrow line from 0.37 to 0.10 (arrowhead at
0.10) with its caption box. -/
theorem c6_theorem :
    lanes.map Prod.fst = [0.10, 0.37, 0.65, 0.90] ∧
    ((consume ysList buildSteps).map (fun r => (r.1.take 3).map Prod.fst)
      = some [0.96, 0.93, 0.90]) ∧
    ((0.93 : ℚ) < 0.96 ∧ (0.90 : ℚ) < 0.93) ∧
    (∃ t1 t2 t3, buildSteps.take 3
      = [Step.arrow x_client x_edge t1, Step.box x_edge t2,
         Step.arrow x_edge x_client t3]) ∧
    (∃ w1, stepOps 50 0.96 (buildSteps.getD 0 (Step.box 0 []))
      = some [DrawOp.arrowLine x_client x_edge 0.96,
              DrawOp.textBox ((x_client + x_edge) / 2) ((0.96 : ℚ) - 0.006) w1]) ∧
    (∃ w2, stepOps 50 0.93 (buildSteps.getD 1 (Step.box 0 []))
      = some [DrawOp.textBox x_edge 0.93 w2]) ∧
    (∃ w3, stepOps 50 0.90 (buildSteps.getD 2 (Step.box 0 []))
      = some [DrawOp.arrowLine x_edge x_client 0.90,
              DrawOp.textBox ((x_edge + x_client) / 2) ((0.90 : ℚ) - 0.006) w3]) := by
  refine ⟨rfl, rfl, ⟨by norm_num, by norm_num⟩, ⟨_, _, _, rfl⟩, ⟨_, rfl⟩, ⟨_, rfl⟩,
    ⟨_, rfl⟩⟩

/-- C7, counterexample: rejoining the wrapped lines with single spaces does not
whitespace-normalize -- for the caption `"a  b"` at width 50 the wrapper
returns the single line `"a  b"` with its double space preserved, while the
normalized text is `"a b"`. -/
theorem c7_counterexample :
    pyWrap "a  b".toList 50 = some ["a  b".toList] ∧
    specNormalizeWs "a  b".toList = "a b".toList ∧
    joinWith [' '] ["a  b".toList] ≠ specNormalizeWs "a  b".toList := by
  exact ⟨by decide, by decide, by decide⟩

/-- C7, amended: rejoining the wrapper's output lines with single spaces
preserves exactly the caption's non-whitespace characters, in order; it does
not in general reproduce the whitespace-normalized text, because whitespace
runs that stay inside a line are preserved verbatim (and words longer than the
width are split). -/
theorem c7_theorem (text : String) (width : Nat) (ls : List (List Char))
    (h : pyWrap text.toList width = some ls) :
    visible (joinWith [' '] ls) = visible text.toList := by
  rw [visible_joinWith [' '] (by decide) ls, pyWrap_visible h]

/-- C7, witness at `("a  b", 50)`. -/
theorem c7_witness :
    pyWrap "a  b".toList 50 = some ["a  b".toList] ∧
    visible (joinWith [' '] ["a  b".toList]) = visible "a  b".toList :=
  ⟨by decide, c7_theorem ("a  b") 50 _ (by decide)⟩

/-- C9, counterexample: at the configuration `--wrap 0` (a value the `int`
option accepts) the build does not consume 23 slots -- the first step pulls one
slot, then its `fill(..., width=0)` raises `ValueError`, aborting the run with
23 of the 24 slots unused, so "consumes exactly 23" and "exactly one slot left"
fail for this configuration. -/
theorem c9_counterexample :
    (runSteps 0 ysList buildSteps).2.1 = some BuildError.valueError ∧
    (runSteps 0 ysList buildSteps).2.2.length = 23 ∧
    ¬ (runSteps 0 ysList buildSteps).2.2.length = 1 :=
  ⟨by decide, by decide, by decide⟩

/-- C9, amended: in every configuration the exhaustion branch (`StopIteration`
from `next(ys)`) is unreachable; for every positive wrap width the shipped
build pulls exactly 23 of the 24 slots -- no step raises and exactly one slot
is left unused -- while at wrap width 0 the run instead aborts with
`ValueError` at the first caption, before exhaustion could ever matter. -/
theorem c9_theorem (wrapW : Nat) :
    ysList.length = 24 ∧
    buildSteps.length = 23 ∧
    (runSteps wrapW ysList buildSteps).2.1 ≠ some BuildError.slotExhausted ∧
    (wrapW ≠ 0 →
      (runSteps wrapW ysList buildSteps).2.1 = none ∧
      (runSteps wrapW ysList buildSteps).2.2.length = 1) := by
  refine ⟨rfl, rfl, ?_, ?_⟩
  · rcases Nat.eq_zero_or_pos wrapW with h0 | hpos
    · subst h0
      decide
    · have h := runSteps_ok wrapW (by omega) buildSteps ysList (by decide)
      rw [h.1]
      simp
  · intro hw
    have h := runSteps_ok wrapW hw buildSteps ysList (by decide)
    refine ⟨h.1, ?_⟩
    rw [h.2]
    rfl

/-- C9, witness at the default wrap width 50. -/
theorem c9_witness :
    (50 : Nat) ≠ 0 ∧
    (runSteps 50 ysList buildSteps).2.1 = none ∧
    (runSteps 50 ysList buildSteps).2.2.length = 1 :=
  ⟨by decide, ((c9_theorem 50).2.2.2 (by decide)).1,
   ((c9_theorem 50).2.2.2 (by decide)).2⟩

/-- C10: wrapping cannot see a caption's own line breaks -- for tab-free
captions, replacing every newline by a space leaves the wrapper's output
unchanged (the munging pass has already made them identical), and after munging
every whitespace character of the caption has become a plain space. -/
theorem c10_theorem (t : List Char) (w : Nat) :
    (('\t' ∉ t) → pyWrap (t.map nlToSpace) w = pyWrap t w) ∧
    (∀ c ∈ munge t, isWs c = true → c = ' ') := by
  constructor
  · intro htab
    have hm := munge_nlToSpace htab
    rw [pyWrap, pyWrap, hm]
  · exact munge_ws_eq_space t

/-- C10, witness: the cache-key caption's embedded newline. -/
theorem c10_witness :
    ('\t' ∉ "a\nb".toList) ∧
    pyWrap ("a\nb".toList.map nlToSpace) 5 = pyWrap "a\nb".toList 5 :=
  ⟨by decide, (c10_theorem ("a\nb".toList) 5).1 (by decide)⟩

end PCF

